import Mathlib

/-!
Shallow embedding of the `pushbits` crate (src/lib.rs): a 32-bit container
`Bits32` with `push`/`pop` of bit fields.

Machine integers are modelled as `Nat` with explicit `% 2 ^ 32` where the
Rust `u32` representation truncates.  Rust panics are modelled as `none`:
the `assert!(num_bits < Self::BIT_WIDTH)` in `push` and `pop`, and the
arithmetic-overflow panic of a shift whose amount is at least the bit width
of the shifted type (in Rust, `u32 >> s` with `s >= 32` is an arithmetic
overflow: it panics when debug assertions are enabled, and performs a
masked shift in release builds; the checked, debug semantics is embedded
here, since that is the semantics under which the crate tests run).
-/

namespace Pushbits

/-- The struct `Bits32 { bits: u32 }`. The field is a `Nat`; the `u32`
range constraint `bits < 2 ^ 32` appears as a hypothesis where needed. -/
structure Bits32 where
  bits : Nat
deriving DecidableEq

namespace Bits32

/-- `Bits32::BIT_WIDTH`. -/
def BIT_WIDTH : Nat := 32

/-- `Bits32::new(bits)`: wraps the given bit pattern. -/
def new (bits : Nat) : Bits32 := ⟨bits⟩

/-- `Bits32::get()`: copies out the current bit pattern. -/
def get (b : Bits32) : Nat := b.bits

/-- The `#[derive(Default)]` impl: field-wise default, `u32::default()` is 0. -/
def defaultBits32 : Bits32 := ⟨0⟩

/-- The `#[derive(PartialOrd, Ord)]` impl: lexicographic comparison of the
fields, here the single field `bits`. -/
def cmp (a b : Bits32) : Ordering := compare a.bits b.bits

/-- `Bits32::push(num_bits, value)`:
`assert!(num_bits < 32); self.bits <<= num_bits;
let mask = (1 << num_bits) - 1; self.bits |= value.into() & mask;`.
The left shifts have amount `num_bits < 32`, so they never overflow-panic;
`<<=` on `u32` truncates, hence the `% 2 ^ 32`.  `value` stands for the
`u32` obtained from `value.into()`. -/
def push (b : Bits32) (numBits value : Nat) : Option Bits32 :=
  if numBits < BIT_WIDTH then
    some ⟨((b.bits <<< numBits) % 2 ^ 32) ||| (value &&& ((1 <<< numBits) - 1))⟩
  else
    none

/-- `Bits32::pop(num_bits)`:
`assert!(num_bits < 32); let res = self.bits >> (Self::BIT_WIDTH - num_bits);
self.bits <<= num_bits; res`.
The right shift has amount `32 - num_bits`; when that amount is not below
32 (exactly when `num_bits = 0`), the shift is an arithmetic overflow and
panics under debug assertions, modelled by the inner `none` branch. -/
def pop (b : Bits32) (numBits : Nat) : Option (Nat × Bits32) :=
  if numBits < BIT_WIDTH then
    if BIT_WIDTH - numBits < 32 then
      some (b.bits >>> (BIT_WIDTH - numBits), ⟨(b.bits <<< numBits) % 2 ^ 32⟩)
    else
      none
  else
    none

/-- The `impl Into<u32> for bool` conversion used by `push_bool`. -/
def boolIntoU32 (v : Bool) : Nat := if v then 1 else 0

/-- `Bits32::push_bool(value)`: `self.push(1, value)`. -/
def push_bool (b : Bits32) (value : Bool) : Option Bits32 :=
  b.push 1 (boolIntoU32 value)

/-- `Bits32::pop_bool()`: `self.pop(1) != 0`. -/
def pop_bool (b : Bits32) : Option (Bool × Bits32) :=
  (b.pop 1).map fun p => (p.1 != 0, p.2)

end Bits32

/-- Runs a sequence of pushes: for each pair `(w, x)` in order, performs
`push(w, x)`; `none` as soon as one push panics. -/
def pushSeq (b : Bits32) : List (Nat × Nat) → Option Bits32
  | [] => some b
  | p :: rest => (b.push p.1 p.2).bind fun b2 => pushSeq b2 rest

/-- Runs a sequence of pops of the given widths in order, collecting the
returned values; `none` as soon as one pop panics. -/
def popSeq (b : Bits32) : List Nat → Option (List Nat)
  | [] => some []
  | w :: rest => (b.pop w).bind fun p => (popSeq p.2 rest).map fun xs => p.1 :: xs

/-- Sum of the widths of a list of `(width, value)` pairs. -/
def widthSum (pairs : List (Nat × Nat)) : Nat := (pairs.map Prod.fst).sum

/-- The bit pattern obtained by packing the values of the pairs in order,
each value occupying its width, the first pair highest. -/
def packed : List (Nat × Nat) → Nat
  | [] => 0
  | p :: rest => p.2 * 2 ^ widthSum rest + packed rest

theorem widthSum_cons (p : Nat × Nat) (rest : List (Nat × Nat)) :
    widthSum (p :: rest) = p.1 + widthSum rest := by
  simp [widthSum]

theorem packed_lt_two_pow (pairs : List (Nat × Nat))
    (h : ∀ p ∈ pairs, p.2 < 2 ^ p.1) :
    packed pairs < 2 ^ widthSum pairs := by
  induction pairs with
  | nil => simp [packed, widthSum]
  | cons p rest ih =>
    have hx : p.2 < 2 ^ p.1 := h p (List.mem_cons_self _ _)
    have hrest : packed rest < 2 ^ widthSum rest :=
      ih (fun q hq => h q (List.mem_cons_of_mem _ hq))
    rw [widthSum_cons, packed]
    calc p.2 * 2 ^ widthSum rest + packed rest
        < p.2 * 2 ^ widthSum rest + 2 ^ widthSum rest := Nat.add_lt_add_left hrest _
      _ = (p.2 + 1) * 2 ^ widthSum rest := by ring
      _ ≤ 2 ^ p.1 * 2 ^ widthSum rest := Nat.mul_le_mul_right _ hx
      _ = 2 ^ (p.1 + widthSum rest) := (pow_add 2 _ _).symm

theorem push_eq (b : Bits32) (w x k : Nat) (hw : w < 32) (hx : x < 2 ^ w)
    (hb : b.bits < 2 ^ k) (hkw : k + w ≤ 32) :
    b.push w x = some ⟨b.bits * 2 ^ w + x⟩ := by
  have hbw : b.bits * 2 ^ w < 2 ^ 32 := by
    calc b.bits * 2 ^ w
        < 2 ^ k * 2 ^ w := mul_lt_mul_of_pos_right hb (pow_pos (by norm_num) w)
      _ = 2 ^ (k + w) := (pow_add 2 _ _).symm
      _ ≤ 2 ^ 32 := Nat.pow_le_pow_right (by norm_num) hkw
  have hOr : b.bits * 2 ^ w ||| x = b.bits * 2 ^ w + x := by
    rw [mul_comm b.bits (2 ^ w)]
    exact (Nat.mul_add_lt_is_or hx b.bits).symm
  simp only [Bits32.push, Bits32.BIT_WIDTH]
  rw [if_pos hw, Nat.shiftLeft_eq, Nat.shiftLeft_eq, one_mul,
    Nat.and_pow_two_sub_one_eq_mod, Nat.mod_eq_of_lt hbw, Nat.mod_eq_of_lt hx, hOr]

theorem pushSeq_eq (pairs : List (Nat × Nat)) :
    ∀ (b : Bits32) (k : Nat), b.bits < 2 ^ k → k + widthSum pairs ≤ 32 →
    (∀ p ∈ pairs, p.1 < 32 ∧ p.2 < 2 ^ p.1) →
    pushSeq b pairs = some ⟨b.bits * 2 ^ widthSum pairs + packed pairs⟩ := by
  induction pairs with
  | nil =>
    intro b k _ _ _
    simp [pushSeq, widthSum, packed]
  | cons p rest ih =>
    intro b k hb hk hv
    obtain ⟨hw, hx⟩ := hv p (List.mem_cons_self _ _)
    rw [widthSum_cons] at hk
    have hkw : k + p.1 ≤ 32 := by omega
    have hb2 : b.bits * 2 ^ p.1 + p.2 < 2 ^ (k + p.1) := by
      calc b.bits * 2 ^ p.1 + p.2
          < b.bits * 2 ^ p.1 + 2 ^ p.1 := Nat.add_lt_add_left hx _
        _ = (b.bits + 1) * 2 ^ p.1 := by ring
        _ ≤ 2 ^ k * 2 ^ p.1 := Nat.mul_le_mul_right _ hb
        _ = 2 ^ (k + p.1) := (pow_add 2 _ _).symm
    rw [pushSeq, push_eq b p.1 p.2 k hw hx hb hkw, Option.some_bind,
      ih ⟨b.bits * 2 ^ p.1 + p.2⟩ (k + p.1) hb2 (by omega)
        (fun q hq => hv q (List.mem_cons_of_mem _ hq))]
    rw [widthSum_cons, packed]
    congr 2
    rw [pow_add]
    ring

theorem pop_eq (b : Bits32) (w : Nat) (h1 : 1 ≤ w) (h2 : w < 32) :
    b.pop w = some (b.bits >>> (32 - w), ⟨(b.bits * 2 ^ w) % 2 ^ 32⟩) := by
  simp only [Bits32.pop, Bits32.BIT_WIDTH]
  rw [if_pos h2, if_pos (by omega : 32 - w < 32), Nat.shiftLeft_eq]

theorem popSeq_eq (pairs : List (Nat × Nat)) :
    (∀ p ∈ pairs, 1 ≤ p.1 ∧ p.1 < 32 ∧ p.2 < 2 ^ p.1) →
    widthSum pairs ≤ 32 →
    popSeq ⟨packed pairs * 2 ^ (32 - widthSum pairs)⟩ (pairs.map Prod.fst)
      = some (pairs.map Prod.snd) := by
  induction pairs with
  | nil =>
    intro _ _
    simp [popSeq, packed]
  | cons p rest ih =>
    intro hv hs
    obtain ⟨h1, h2, hx⟩ := hv p (List.mem_cons_self _ _)
    have hvrest := fun q hq => hv q (List.mem_cons_of_mem p hq)
    rw [widthSum_cons] at hs
    have hpr : packed rest < 2 ^ widthSum rest :=
      packed_lt_two_pow rest (fun q hq => (hvrest q hq).2.2)
    have hApos : 0 < 2 ^ (32 - p.1) := pow_pos (by norm_num) _
    have hbits : packed (p :: rest) * 2 ^ (32 - widthSum (p :: rest))
        = 2 ^ (32 - p.1) * p.2 + packed rest * 2 ^ (32 - (p.1 + widthSum rest)) := by
      rw [packed, widthSum_cons, add_mul, mul_assoc, ← pow_add,
        (by omega : widthSum rest + (32 - (p.1 + widthSum rest)) = 32 - p.1),
        mul_comm p.2 (2 ^ (32 - p.1))]
    have hrlt : packed rest * 2 ^ (32 - (p.1 + widthSum rest)) < 2 ^ (32 - p.1) := by
      calc packed rest * 2 ^ (32 - (p.1 + widthSum rest))
          < 2 ^ widthSum rest * 2 ^ (32 - (p.1 + widthSum rest)) :=
            mul_lt_mul_of_pos_right hpr (pow_pos (by norm_num) _)
        _ = 2 ^ (widthSum rest + (32 - (p.1 + widthSum rest))) := (pow_add 2 _ _).symm
        _ = 2 ^ (32 - p.1) := by rw [(by omega : widthSum rest + (32 - (p.1 + widthSum rest)) = 32 - p.1)]
    have hres : (packed (p :: rest) * 2 ^ (32 - widthSum (p :: rest))) >>> (32 - p.1) = p.2 := by
      rw [Nat.shiftRight_eq_div_pow, hbits, Nat.mul_add_div hApos,
        Nat.div_eq_of_lt hrlt, Nat.add_zero]
    have hrem : (packed (p :: rest) * 2 ^ (32 - widthSum (p :: rest))) * 2 ^ p.1 % 2 ^ 32
        = packed rest * 2 ^ (32 - widthSum rest) := by
      have hclt : packed rest * 2 ^ (32 - widthSum rest) < 2 ^ 32 := by
        calc packed rest * 2 ^ (32 - widthSum rest)
            < 2 ^ widthSum rest * 2 ^ (32 - widthSum rest) :=
              mul_lt_mul_of_pos_right hpr (pow_pos (by norm_num) _)
          _ = 2 ^ (widthSum rest + (32 - widthSum rest)) := (pow_add 2 _ _).symm
          _ = 2 ^ 32 := by rw [(by omega : widthSum rest + (32 - widthSum rest) = 32)]
      rw [hbits, add_mul, mul_assoc (2 ^ (32 - p.1)) p.2 (2 ^ p.1), mul_comm p.2 (2 ^ p.1),
        ← mul_assoc (2 ^ (32 - p.1)) (2 ^ p.1) p.2, ← pow_add,
        (by omega : 32 - p.1 + p.1 = 32),
        mul_assoc, ← pow_add,
        (by omega : 32 - (p.1 + widthSum rest) + p.1 = 32 - widthSum rest),
        Nat.mul_add_mod, Nat.mod_eq_of_lt hclt]
    rw [List.map_cons, popSeq, pop_eq _ p.1 h1 h2, hres, hrem, Option.some_bind,
      ih hvrest (by omega)]
    simp

/-- The full round-trip composition: push all pairs starting from the zero
container, then pop their widths in the same order. -/
def roundTrip (pairs : List (Nat × Nat)) : Option (List Nat) :=
  (pushSeq (Bits32.new 0) pairs).bind fun b => popSeq b (pairs.map Prod.fst)

/-- Claim C1 (amended): pushing values x_1..x_k of widths w_1..w_k (each
1 ≤ w_i < 32, x_i < 2 ^ w_i) into a container constructed with initial
value 0 and then popping w_1..w_k in the same order returns x_1..x_k,
provided the widths sum to exactly 32.  The original side conditions
(widths may be 0, sum only bounded by 32) do not suffice: pop reads from
the high end, so the pushed fields must fill the container exactly, and a
pop of width 0 overflows its shift. -/
theorem c1_round_trip (pairs : List (Nat × Nat))
    (hv : ∀ p ∈ pairs, 1 ≤ p.1 ∧ p.1 < 32 ∧ p.2 < 2 ^ p.1)
    (hs : widthSum pairs = 32) :
    roundTrip pairs = some (pairs.map Prod.snd) := by
  have hpush := pushSeq_eq pairs (Bits32.new 0) 0 (by decide) (by omega)
    (fun p hp => ⟨(hv p hp).2.1, (hv p hp).2.2⟩)
  have hpop := popSeq_eq pairs hv (by omega)
  rw [hs] at hpop
  simp only [Nat.sub_self, pow_zero, mul_one] at hpop
  rw [roundTrip, hpush, Option.some_bind]
  simpa [Bits32.new] using hpop

/-- Claim C1 witness: the round-trip theorem applied to the concrete
sequence of widths 12, 12, 8 and values 0xDEA, 0xDBE, 0xEF. -/
theorem c1_round_trip_witness :
    roundTrip [(12, 0xDEA), (12, 0xDBE), (8, 0xEF)]
      = some ([((12:Nat), (0xDEA:Nat)), (12, 0xDBE), (8, 0xEF)].map Prod.snd) :=
  c1_round_trip _ (by decide) (by decide)

/-- Claim C1 counterexample: under the side conditions as stated
(0 ≤ w_i < 32, x_i < 2 ^ w_i, sum of widths at most 32) the round trip
fails, in two ways.  With widths summing to 1 < 32, pushing 1 with width 1
and popping width 1 returns 0, not 1 (the pushed bit sits at the low end
while pop reads the high end).  With a width of 0 present (and the other
widths summing to 32), the pop of width 0 shift-overflows, so the pop
sequence fails entirely. -/
theorem c1_counterexample :
    (([((1:Nat), (1:Nat))].all fun p => decide (p.1 < 32) && decide (p.2 < 2 ^ p.1)) = true) ∧
    widthSum [(1, 1)] ≤ 32 ∧
    roundTrip [(1, 1)] ≠ some ([((1:Nat), (1:Nat))].map Prod.snd) ∧
    (([((0:Nat), (0:Nat)), (12, 0xDEA), (12, 0xDBE), (8, 0xEF)].all
        fun p => decide (p.1 < 32) && decide (p.2 < 2 ^ p.1)) = true) ∧
    widthSum [(0, 0), (12, 0xDEA), (12, 0xDBE), (8, 0xEF)] ≤ 32 ∧
    roundTrip [(0, 0), (12, 0xDEA), (12, 0xDBE), (8, 0xEF)]
      ≠ some ([((0:Nat), (0:Nat)), (12, 0xDEA), (12, 0xDBE), (8, 0xEF)].map Prod.snd) := by
  decide

/-- Claim C2: the claim states that pop never fails for any width
0 ≤ num_bits < 32, in particular pop(0).  The code computes
self.bits >> (32 - num_bits), and at num_bits = 0 the shift amount is 32,
an arithmetic overflow on u32: it panics under debug assertions, although
the doc comment of pop promises a panic only when num_bits is greater
than 31.  This theorem evaluates the embedded code at the failing input. -/
theorem c2_pop_zero_fails : Bits32.pop (Bits32.new 0xDEADBEEF) 0 = none := by
  decide

/-- Claim C3: push(0, x) is the identity on the pattern (shown here at a
concrete input), but pop(0) does not return 0 leaving the pattern intact:
it shift-overflows and fails, evaluated here at the pattern 1. -/
theorem c3_zero_width :
    (Bits32.new 5).push 0 7 = some (Bits32.new 5) ∧
    (Bits32.new 1).pop 0 = none := by
  decide

/-- Claim C4: for 0 ≤ num_bits < 32, push(num_bits, x) sets the pattern to
((bits * 2 ^ num_bits) mod 2 ^ 32) bitwise-OR (x mod 2 ^ num_bits), and
bits of x at or above position num_bits never affect the result. -/
theorem c4_push_semantics (b : Bits32) (n x : Nat) (h : n < 32) :
    b.push n x = some (Bits32.mk (((b.bits * 2 ^ n) % 2 ^ 32) ||| (x % 2 ^ n))) ∧
    b.push n x = b.push n (x % 2 ^ n) := by
  constructor
  · simp only [Bits32.push, Bits32.BIT_WIDTH]
    rw [if_pos h, Nat.shiftLeft_eq, Nat.shiftLeft_eq, one_mul,
      Nat.and_pow_two_sub_one_eq_mod]
  · simp only [Bits32.push, Bits32.BIT_WIDTH]
    rw [if_pos h, Nat.shiftLeft_eq 1 n, one_mul, Nat.and_pow_two_sub_one_eq_mod,
      Nat.and_pow_two_sub_one_eq_mod, Nat.mod_mod_of_dvd x dvd_rfl, if_pos h]

/-- Claim C4 witness: the push semantics at pattern 3, width 5, value
0x123. -/
theorem c4_push_semantics_witness :
    (Bits32.new 3).push 5 0x123
      = some (Bits32.mk ((((Bits32.new 3).bits * 2 ^ 5) % 2 ^ 32) ||| (0x123 % 2 ^ 5))) ∧
    (Bits32.new 3).push 5 0x123 = (Bits32.new 3).push 5 (0x123 % 2 ^ 5) :=
  c4_push_semantics (Bits32.new 3) 5 0x123 (by decide)

/-- Claim C5: for 1 ≤ num_bits < 32 and a pattern in u32 range,
pop(num_bits) returns the pattern right-shifted by (32 - num_bits), a
value below 2 ^ num_bits, and leaves the pattern at
(bits * 2 ^ num_bits) mod 2 ^ 32. -/
theorem c5_pop_semantics (b : Bits32) (n : Nat) (h1 : 1 ≤ n) (h2 : n < 32)
    (hb : b.bits < 2 ^ 32) :
    b.pop n = some (b.bits >>> (32 - n), Bits32.mk ((b.bits * 2 ^ n) % 2 ^ 32)) ∧
    b.bits >>> (32 - n) < 2 ^ n := by
  refine ⟨pop_eq b n h1 h2, ?_⟩
  rw [Nat.shiftRight_eq_div_pow]
  apply Nat.div_lt_of_lt_mul
  calc b.bits < 2 ^ 32 := hb
    _ = 2 ^ (32 - n) * 2 ^ n := by rw [← pow_add]; congr 1; omega

/-- Claim C5 witness: the pop semantics at pattern 0xDEADBEEF, width 12. -/
theorem c5_pop_semantics_witness :
    (Bits32.new 0xDEADBEEF).pop 12
      = some ((Bits32.new 0xDEADBEEF).bits >>> (32 - 12),
          Bits32.mk (((Bits32.new 0xDEADBEEF).bits * 2 ^ 12) % 2 ^ 32)) ∧
    (Bits32.new 0xDEADBEEF).bits >>> (32 - 12) < 2 ^ 12 :=
  c5_pop_semantics (Bits32.new 0xDEADBEEF) 12 (by decide) (by decide) (by decide)

/-- Claim C6: push and pop fail (assertion panic, no observable resulting
state) for every width of at least 32, including exactly 32. -/
theorem c6_width_boundary (b : Bits32) (n x : Nat) (h : 32 ≤ n) :
    b.push n x = none ∧ b.pop n = none := by
  have hn : ¬ n < Bits32.BIT_WIDTH := by
    unfold Bits32.BIT_WIDTH
    omega
  constructor
  · simp only [Bits32.push]
    rw [if_neg hn]
  · simp only [Bits32.pop]
    rw [if_neg hn]

/-- Claim C6 witness: the boundary theorem at width exactly 32. -/
theorem c6_width_boundary_witness :
    (Bits32.new 0).push 32 0 = none ∧ (Bits32.new 0).pop 32 = none :=
  c6_width_boundary (Bits32.new 0) 32 0 (by decide)

/-- Claim C7: from pattern 0xDEADBEEF, pop(12) returns 0xDEA, a second
pop(12) returns 0xDBE, a third pop(8) returns 0xEF, and the stored pattern
is then exactly 0. -/
theorem c7_concrete_pop :
    ((Bits32.new 0xDEADBEEF).pop 12).bind (fun p1 =>
      (p1.2.pop 12).bind (fun p2 =>
        (p2.2.pop 8).map (fun p3 => (p1.1, p2.1, p3.1, p3.2))))
      = some (0xDEA, 0xDBE, 0xEF, Bits32.new 0) := by
  decide

/-- Claim C8: push_bool v equals push(1, x) with x the 0-or-1 image of v,
and pop_bool returns true exactly when pop(1) returns a nonzero value,
with the same effect on the stored pattern. -/
theorem c8_bool_wrappers :
    (∀ (b : Bits32) (v : Bool), b.push_bool v = b.push 1 (if v then 1 else 0)) ∧
    (∀ b : Bits32, b.pop_bool = (b.pop 1).map fun p => (decide (p.1 ≠ 0), p.2)) := by
  constructor
  · intro b v
    rfl
  · intro b
    unfold Bits32.pop_bool
    congr 1
    funext p
    by_cases h : p.1 = 0
    · simp [h]
    · simp [h]

/-- Claim C9: two containers are equal exactly when their patterns are
equal, and the derived ordering places a before b exactly when the pattern
of a is below the pattern of b. -/
theorem c9_comparisons :
    (∀ a b : Bits32, a = b ↔ a.get = b.get) ∧
    (∀ a b : Bits32, a.cmp b = Ordering.lt ↔ a.get < b.get) := by
  constructor
  · intro a b
    cases a
    cases b
    simp [Bits32.get]
  · intro a b
    simp [Bits32.cmp, Bits32.get, Nat.compare_eq_lt]

/-- Claim C10: the derived Default instance yields the zero container,
identical to new(0), with get() returning 0. -/
theorem c10_default :
    Bits32.defaultBits32 = Bits32.new 0 ∧ Bits32.defaultBits32.get = 0 :=
  ⟨rfl, rfl⟩

end Pushbits
